import Mathlib

/-!
Verification of the document chunking and retrieval-citation pipeline of a
retrieval-augmented-generation backend.

The development shallowly embeds the Python services:
  * `backend/src/services/chunking.py` — Markdown section parsing and
    hybrid sentence-aware chunking (`parse_markdown_sections`,
    `split_text_by_sentences`, `chunk_section`);
  * `backend/src/services/selected_text.py` — the ephemeral in-memory
    vector store and the selected-text query service;
  * `backend/src/services/agent.py` — citation extraction
    (`_extract_citations`).

Python strings are modelled by `String`; all string manipulation is
re-implemented structurally over `String.data` (`List Char`) so that every
definition evaluates inside the kernel.  The external token counter
(`count_tokens`, a HuggingFace tokenizer) and the external sentence splitter
(spaCy / the regex fallback) are modelled as explicit function parameters
`tc : String → Nat` and `sentSplit : String → List String`; floating point
similarity scores are modelled by an arbitrary linear ordered field-like
carrier (a `LinearOrderedCommRing`), instantiated with `Int` in concrete
witnesses.
-/

namespace RagPipeline

/-! ## String utilities (models of Python `str` methods) -/

/-- Model of Python `str.split()` with no argument: split on runs of
whitespace, discarding empty pieces.  `acc` accumulates the current word in
reverse. -/
def wordsAux : List Char → List Char → List String
  | [], acc => if acc = [] then [] else [String.mk acc.reverse]
  | c :: cs, acc =>
    if c.isWhitespace then
      if acc = [] then wordsAux cs [] else String.mk acc.reverse :: wordsAux cs []
    else wordsAux cs (c :: acc)

/-- The whitespace-delimited words of a string (Python `s.split()`). -/
def wordsOf (s : String) : List String := wordsAux s.data []

/-- The concatenated word sequences of a list of strings.  Two texts have the
same `wordsJoin` of fragments exactly when they agree up to whitespace
normalization. -/
def wordsJoin (l : List String) : List String := (l.map wordsOf).flatten

/-- Model of Python `' '.join(l)`. -/
def joinSp : List String → String
  | [] => ""
  | [x] => x
  | x :: y :: ys => x ++ " " ++ joinSp (y :: ys)

/-- Model of Python `'\n'.join(l)`. -/
def joinNl : List String → String
  | [] => ""
  | [x] => x
  | x :: y :: ys => x ++ "\n" ++ joinNl (y :: ys)

/-- Strip leading and trailing whitespace from a character list. -/
def trimCh (l : List Char) : List Char :=
  ((l.dropWhile Char.isWhitespace).reverse.dropWhile Char.isWhitespace).reverse

/-- Model of Python `str.strip()`. -/
def trimStr (s : String) : String := String.mk (trimCh s.data)

/-- Split on a separator character, keeping empty pieces
(Python `s.split('\n')` always yields at least one piece). -/
def splitChAux (sep : Char) : List Char → List Char → List String
  | [], acc => [String.mk acc.reverse]
  | c :: cs, acc =>
    if c = sep then String.mk acc.reverse :: splitChAux sep cs []
    else splitChAux sep cs (c :: acc)

/-- The lines of a document, as in Python `markdown_text.split('\n')`. -/
def splitLines (s : String) : List String := splitChAux '\n' s.data []

/-- Does `s` start with `pre`?  (Model of Python `str.startswith`.) -/
def startsWithCh : List Char → List Char → Bool
  | _, [] => true
  | [], _ :: _ => false
  | c :: cs, p :: ps => c = p && startsWithCh cs ps

/-- Model of Python `s.startswith(pre)`. -/
def strStartsWith (s pre : String) : Bool := startsWithCh s.data pre.data

/-! ## Decimal numerals (model of Python `str(n)` / `int(digits)`) -/

/-- The character of a decimal digit. -/
def digitChar : Nat → Char
  | 0 => '0' | 1 => '1' | 2 => '2' | 3 => '3' | 4 => '4'
  | 5 => '5' | 6 => '6' | 7 => '7' | 8 => '8' | 9 => '9'
  | _ => '*'

/-- The value of a decimal digit character (10 for non-digits). -/
def digitVal : Char → Nat
  | '0' => 0 | '1' => 1 | '2' => 2 | '3' => 3 | '4' => 4
  | '5' => 5 | '6' => 6 | '7' => 7 | '8' => 8 | '9' => 9
  | _ => 10

/-- Decimal digits of `n`, most significant first; fuelled to keep the
recursion structural. -/
def numStrAux : Nat → Nat → List Char
  | 0, _ => []
  | fuel + 1, n =>
    if n < 10 then [digitChar n]
    else numStrAux fuel (n / 10) ++ [digitChar (n % 10)]

/-- Model of Python `str(n)` for a natural number. -/
def numStr (n : Nat) : String := String.mk (numStrAux (n + 1) n)

/-- Decimal value of a digit string (model of Python `int(ds)`),
accumulator style. -/
def numValAux : List Char → Nat → Nat
  | [], acc => acc
  | c :: cs, acc => numValAux cs (10 * acc + digitVal c)

theorem digitVal_digitChar {d : Nat} (h : d < 10) : digitVal (digitChar d) = d := by
  interval_cases d <;> rfl

theorem numValAux_append (l₁ l₂ : List Char) (a : Nat) :
    numValAux (l₁ ++ l₂) a = numValAux l₂ (numValAux l₁ a) := by
  induction l₁ generalizing a with
  | nil => rfl
  | cons c cs ih => simp [numValAux, ih]

theorem numValAux_numStrAux : ∀ fuel n a, n ≤ fuel →
    numValAux (numStrAux (fuel + 1) n) a = 10 ^ (numStrAux (fuel + 1) n).length * a + n := by
  intro fuel
  induction fuel with
  | zero =>
    intro n a h
    interval_cases n
    simp [numStrAux, numValAux, digitChar, digitVal]
  | succ f ih =>
    intro n a h
    by_cases h10 : n < 10
    · simp [numStrAux, h10, numValAux, digitVal_digitChar h10]
    · have hrec : numStrAux (f + 1 + 1) n = numStrAux (f + 1) (n / 10) ++ [digitChar (n % 10)] := by
        simp [numStrAux, h10]
      have hdiv : n / 10 ≤ f := by
        have h1 : n / 10 < n := Nat.div_lt_self (by omega) (by omega)
        omega
      have hm : n % 10 < 10 := Nat.mod_lt _ (by omega)
      rw [hrec, numValAux_append, ih (n / 10) a hdiv]
      simp only [numValAux, digitVal_digitChar hm, List.length_append,
        List.length_singleton, pow_succ]
      have e1 : 10 * (10 ^ (numStrAux (f + 1) (n / 10)).length * a + n / 10) + n % 10
          = 10 ^ (numStrAux (f + 1) (n / 10)).length * 10 * a + (10 * (n / 10) + n % 10) := by
        ring
      rw [e1, Nat.div_add_mod n 10]

theorem numStr_injective : Function.Injective numStr := by
  intro m n h
  have hd : numStrAux (m + 1) m = numStrAux (n + 1) n := congrArg String.data h
  have hm := numValAux_numStrAux m m 0 (Nat.le_refl m)
  have hn := numValAux_numStrAux n n 0 (Nat.le_refl n)
  rw [hd] at hm
  rw [hn] at hm
  omega

/-! ## Basic lemmas about words and joins -/

theorem wordsAux_append_ws (c : Char) (hc : c.isWhitespace = true) :
    ∀ (xs ys : List Char) (acc : List Char),
      wordsAux (xs ++ c :: ys) acc = wordsAux xs acc ++ wordsAux ys [] := by
  intro xs
  induction xs with
  | nil =>
    intro ys acc
    by_cases ha : acc = [] <;> simp [wordsAux, hc, ha]
  | cons x xs ih =>
    intro ys acc
    by_cases hx : x.isWhitespace
    · by_cases ha : acc = [] <;> simp [wordsAux, hx, ha, ih]
    · simp [wordsAux, hx, ih]

theorem wordsOf_append_space (a b : String) :
    wordsOf (a ++ " " ++ b) = wordsOf a ++ wordsOf b := by
  have hdata : (a ++ " " ++ b).data = a.data ++ ' ' :: b.data := by
    simp [String.data_append]
  simp only [wordsOf, hdata]
  exact wordsAux_append_ws ' ' (by decide) a.data b.data []

theorem wordsOf_joinSp : ∀ l : List String, wordsOf (joinSp l) = wordsJoin l := by
  intro l
  induction l with
  | nil => rfl
  | cons x xs ih =>
    cases xs with
    | nil => simp [joinSp, wordsJoin]
    | cons y ys =>
      have : joinSp (x :: y :: ys) = x ++ " " ++ joinSp (y :: ys) := rfl
      rw [this, wordsOf_append_space, ih]
      simp [wordsJoin]

theorem wordsJoin_append (l₁ l₂ : List String) :
    wordsJoin (l₁ ++ l₂) = wordsJoin l₁ ++ wordsJoin l₂ := by
  simp [wordsJoin]

/-- Every word produced by `wordsAux` is nonempty and whitespace-free. -/
theorem wordsAux_words_clean :
    ∀ (l acc : List Char), (∀ c ∈ acc, c.isWhitespace = false) →
      ∀ w ∈ wordsAux l acc, w.data ≠ [] ∧ ∀ c ∈ w.data, c.isWhitespace = false := by
  intro l
  induction l with
  | nil =>
    intro acc hacc w hw
    by_cases ha : acc = []
    · simp [wordsAux, ha] at hw
    · simp [wordsAux, ha] at hw
      subst hw
      constructor
      · simpa using ha
      · intro c hc
        exact hacc c (by simpa using hc)
  | cons c cs ih =>
    intro acc hacc w hw
    by_cases hc : c.isWhitespace
    · by_cases ha : acc = []
      · simp [wordsAux, hc, ha] at hw
        exact ih [] (by simp) w hw
      · simp [wordsAux, hc, ha] at hw
        rcases hw with hw | hw
        · subst hw
          refine ⟨by simpa using ha, ?_⟩
          intro d hd
          exact hacc d (by simpa using hd)
        · exact ih [] (by simp) w hw
    · simp [wordsAux, hc] at hw
      refine ih (c :: acc) ?_ w hw
      intro d hd
      rcases List.mem_cons.mp hd with hd | hd
      · subst hd; simpa using hc
      · exact hacc d hd

theorem wordsOf_words_clean (s : String) :
    ∀ w ∈ wordsOf s, w.data ≠ [] ∧ ∀ c ∈ w.data, c.isWhitespace = false :=
  wordsAux_words_clean s.data [] (by simp)

theorem wordsAux_all_clean :
    ∀ (l acc : List Char), (l ≠ [] ∨ acc ≠ []) → (∀ c ∈ l, c.isWhitespace = false) →
      wordsAux l acc = [String.mk (acc.reverse ++ l)] := by
  intro l
  induction l with
  | nil =>
    intro acc hne _
    rcases hne with hne | hne
    · exact absurd rfl hne
    · simp [wordsAux, hne]
  | cons c cs ih =>
    intro acc _ hcl
    have hc : c.isWhitespace = false := hcl c (by simp)
    simp [wordsAux, hc]
    rw [ih (c :: acc) (Or.inr (by simp)) (fun d hd => hcl d (by simp [hd]))]
    simp

/-- A single whitespace-free word splits to itself. -/
theorem wordsOf_word (w : String) (h : w.data ≠ []) (hcl : ∀ c ∈ w.data, c.isWhitespace = false) :
    wordsOf w = [w] := by
  unfold wordsOf
  rw [wordsAux_all_clean w.data [] (Or.inl h) hcl]
  simp

theorem wordsOf_mem_wordsOf {s w : String} (hw : w ∈ wordsOf s) : wordsOf w = [w] := by
  obtain ⟨h1, h2⟩ := wordsOf_words_clean s w hw
  exact wordsOf_word w h1 h2

theorem wordsJoin_of_words {ws : List String} (h : ∀ w ∈ ws, wordsOf w = [w]) :
    wordsJoin ws = ws := by
  induction ws with
  | nil => rfl
  | cons w ws ih =>
    simp [wordsJoin] at ih ⊢
    rw [h w (by simp)]
    have := ih (fun x hx => h x (by simp [hx]))
    simp [wordsJoin] at this
    simp [this]

/-! ## Chunking configuration and data model (`chunking.py`) -/

/-- `MAX_CHUNK_TOKENS` in `chunking.py`. -/
def MAX_CHUNK_TOKENS : Nat := 512

/-- `MIN_CHUNK_TOKENS` in `chunking.py`. -/
def MIN_CHUNK_TOKENS : Nat := 50

/-- The `Section` dataclass of `chunking.py`.  The Python `section_id`
attribute is called `sectionId` here (`section` is reserved in Lean). -/
structure Section where
  title : String
  level : Nat
  content : String
  chapter : Nat
  sectionId : String
  subsectionId : Option String
  urlAnchor : String
deriving DecidableEq, Repr, Inhabited

/-- The `ChunkMetadata` dataclass of `chunking.py`.  The random UUID
`chunk_id` is produced by an external generator and not modelled; the
Python `section` attribute is called `sectionId` here. -/
structure ChunkMetadata where
  text : String
  chapter : Nat
  sectionId : String
  subsection : Option String
  urlAnchor : String
  token_count : Nat
  chunk_index : Nat
deriving DecidableEq, Repr, Inhabited

/-! ## `split_text_by_sentences`

The Python function first obtains a sentence list (spaCy when available,
otherwise `re.split(r'(?<=[.!?])\s+', text)`) and then greedily packs the
sentences; sentence detection is an external component, so the packing is
defined over an explicit sentence list and `chunk_section` below takes the
sentence splitter as a function parameter.  `tc` models the external
`count_tokens`. -/

/-- Inner loop of `split_text_by_sentences`: greedy packing of the words of a
single over-long sentence (`for word in words: ...` including the trailing
`if temp_chunk: chunks.append(' '.join(temp_chunk))`). -/
def packWordsAux (tc : String → Nat) (maxT : Nat) :
    List String → List String → Nat → List String
  | [], temp, _ => if temp = [] then [] else [joinSp temp]
  | w :: ws, temp, tempTok =>
    if maxT < tempTok + tc w then
      (if temp = [] then [] else [joinSp temp]) ++ packWordsAux tc maxT ws [w] (tc w)
    else
      packWordsAux tc maxT ws (temp ++ [w]) (tempTok + tc w)

/-- Outer loop of `split_text_by_sentences`: greedy packing of sentences,
falling back to word-level packing for a sentence longer than `maxT`
(`for sentence in sentences: ...` including the trailing
`if current_chunk: chunks.append(' '.join(current_chunk))`). -/
def packSentencesAux (tc : String → Nat) (maxT : Nat) :
    List String → List String → Nat → List String
  | [], cur, _ => if cur = [] then [] else [joinSp cur]
  | s :: ss, cur, curTok =>
    if maxT < tc s then
      (if cur = [] then [] else [joinSp cur])
        ++ packWordsAux tc maxT (wordsOf s) [] 0
        ++ packSentencesAux tc maxT ss [] 0
    else if maxT < curTok + tc s then
      (if cur = [] then [] else [joinSp cur]) ++ packSentencesAux tc maxT ss [s] (tc s)
    else
      packSentencesAux tc maxT ss (cur ++ [s]) (curTok + tc s)

/-- `split_text_by_sentences(text, max_tokens)`, applied to the sentence
list produced by the external sentence detector. -/
def split_text_by_sentences (tc : String → Nat) (maxT : Nat)
    (sentences : List String) : List String :=
  packSentencesAux tc maxT sentences [] 0

/-! ## `chunk_section` -/

/-- Build one `ChunkMetadata` for section `sec` (the keyword arguments of the
`ChunkMetadata(...)` constructor calls in `chunk_section`). -/
def mkChunk (sec : Section) (text : String) (tok : Nat) (idx : Nat) : ChunkMetadata :=
  { text := text
    chapter := sec.chapter
    sectionId := sec.sectionId
    subsection := sec.subsectionId
    urlAnchor := sec.urlAnchor
    token_count := tok
    chunk_index := idx }

/-- The merge pass of `chunk_section` (`for idx, chunk_text in
enumerate(chunk_texts): ...`).  `acc` holds the chunks built so far in
reverse order, so the Python `chunks[-1]` is the head of `acc`. -/
def mergeAux (tc : String → Nat) (sec : Section) :
    List (Nat × String) → List ChunkMetadata → List ChunkMetadata
  | [], acc => acc.reverse
  | (idx, t) :: rest, acc =>
    let tok := tc t
    if tok < MIN_CHUNK_TOKENS ∧ 0 < idx then
      match acc with
      | prev :: accTail =>
        let merged := prev.text ++ " " ++ t
        let mtok := tc merged
        if mtok ≤ MAX_CHUNK_TOKENS then
          mergeAux tc sec rest ({ prev with text := merged, token_count := mtok } :: accTail)
        else
          mergeAux tc sec rest (mkChunk sec t tok idx :: prev :: accTail)
      | [] => mergeAux tc sec rest [mkChunk sec t tok idx]
    else
      mergeAux tc sec rest (mkChunk sec t tok idx :: acc)

/-- `chunk_section(section, source_file)`: one chunk when the section fits
within `MAX_CHUNK_TOKENS`, otherwise the sentence split followed by the
merge pass.  `sentSplit` models the external sentence detector used by
`split_text_by_sentences`. -/
def chunk_section (tc : String → Nat) (sentSplit : String → List String)
    (sec : Section) : List ChunkMetadata :=
  let secTok := tc sec.content
  if secTok ≤ MAX_CHUNK_TOKENS then
    [mkChunk sec sec.content secTok 0]
  else
    let chunkTexts := split_text_by_sentences tc MAX_CHUNK_TOKENS (sentSplit sec.content)
    mergeAux tc sec chunkTexts.enum []

/-! ## Lemmas about the greedy packing passes -/

theorem tc_joinSp_append {tc : String → Nat}
    (htc : ∀ a b, tc (a ++ " " ++ b) = tc a + tc b) :
    ∀ (l : List String) (x : String), l ≠ [] →
      tc (joinSp (l ++ [x])) = tc (joinSp l) + tc x := by
  intro l
  induction l with
  | nil => intro x h; exact absurd rfl h
  | cons a t ih =>
    intro x _
    cases t with
    | nil => simpa [joinSp] using htc a x
    | cons b t2 =>
      have h1 : joinSp ((a :: b :: t2) ++ [x]) = a ++ " " ++ joinSp ((b :: t2) ++ [x]) := rfl
      have h2 : joinSp (a :: b :: t2) = a ++ " " ++ joinSp (b :: t2) := rfl
      rw [h1, htc, ih x (by simp), h2, htc]
      ring

theorem packWordsAux_le {tc : String → Nat} {maxT : Nat}
    (htc : ∀ a b, tc (a ++ " " ++ b) = tc a + tc b) :
    ∀ (ws temp : List String) (tempTok : Nat),
      (∀ w ∈ ws, tc w ≤ maxT) →
      (temp = [] → tempTok = 0) →
      (temp ≠ [] → tc (joinSp temp) = tempTok) →
      tempTok ≤ maxT →
      ∀ c ∈ packWordsAux tc maxT ws temp tempTok, tc c ≤ maxT := by
  intro ws
  induction ws with
  | nil =>
    intro temp tempTok _ _ h2 h3 c hc
    by_cases ht : temp = []
    · simp [packWordsAux, ht] at hc
    · simp [packWordsAux, ht] at hc
      subst hc
      rw [h2 ht]
      exact h3
  | cons w ws ih =>
    intro temp tempTok hws h1 h2 h3 c hc
    by_cases hover : maxT < tempTok + tc w
    · simp only [packWordsAux, if_pos hover] at hc
      rcases List.mem_append.mp hc with hc | hc
      · by_cases ht : temp = []
        · simp [ht] at hc
        · simp [ht] at hc
          subst hc
          rw [h2 ht]
          exact h3
      · refine ih [w] (tc w) (fun x hx => hws x (by simp [hx])) (by simp) ?_
          (hws w (by simp)) c hc
        intro _
        simp [joinSp]
    · simp only [packWordsAux, if_neg hover] at hc
      refine ih (temp ++ [w]) (tempTok + tc w) (fun x hx => hws x (by simp [hx]))
        (by simp) ?_ (by omega) c hc
      intro _
      by_cases ht : temp = []
      · subst ht
        simp [joinSp, h1 rfl]
      · rw [tc_joinSp_append htc temp w ht, h2 ht]

theorem packWordsAux_words {tc : String → Nat} {maxT : Nat} :
    ∀ (ws temp : List String) (tempTok : Nat), (∀ w ∈ ws, wordsOf w = [w]) →
      wordsJoin (packWordsAux tc maxT ws temp tempTok) = wordsJoin temp ++ ws := by
  intro ws
  induction ws with
  | nil =>
    intro temp tempTok _
    by_cases ht : temp = []
    · simp [packWordsAux, ht, wordsJoin]
    · simp [packWordsAux, ht, wordsJoin, wordsOf_joinSp]
  | cons w ws ih =>
    intro temp tempTok hws
    have hw : wordsOf w = [w] := hws w (by simp)
    by_cases hover : maxT < tempTok + tc w
    · simp only [packWordsAux, if_pos hover]
      rw [wordsJoin_append, ih [w] (tc w) (fun x hx => hws x (by simp [hx]))]
      by_cases ht : temp = []
      · simp [ht, wordsJoin, hw]
      · simp [ht, wordsJoin, wordsOf_joinSp, hw, wordsJoin_append]
    · simp only [packWordsAux, if_neg hover]
      rw [ih (temp ++ [w]) (tempTok + tc w) (fun x hx => hws x (by simp [hx])),
        wordsJoin_append]
      simp [wordsJoin, hw]

theorem packWordsAux_ne_nil {tc : String → Nat} {maxT : Nat} :
    ∀ (ws temp : List String) (tempTok : Nat), ws ≠ [] ∨ temp ≠ [] →
      packWordsAux tc maxT ws temp tempTok ≠ [] := by
  intro ws
  induction ws with
  | nil =>
    intro temp tempTok h
    rcases h with h | h
    · exact absurd rfl h
    · simp [packWordsAux, h]
  | cons w ws ih =>
    intro temp tempTok _
    by_cases hover : maxT < tempTok + tc w
    · simp only [packWordsAux, if_pos hover]
      intro hcontra
      rcases List.append_eq_nil.mp hcontra with ⟨_, h2⟩
      exact ih [w] (tc w) (Or.inr (by simp)) h2
    · simp only [packWordsAux, if_neg hover]
      exact ih (temp ++ [w]) (tempTok + tc w) (Or.inr (by simp))

theorem packSentencesAux_le {tc : String → Nat} {maxT : Nat}
    (htc : ∀ a b, tc (a ++ " " ++ b) = tc a + tc b) :
    ∀ (ss cur : List String) (curTok : Nat),
      (∀ s ∈ ss, ∀ w ∈ wordsOf s, tc w ≤ maxT) →
      (cur = [] → curTok = 0) →
      (cur ≠ [] → tc (joinSp cur) = curTok) →
      curTok ≤ maxT →
      ∀ c ∈ packSentencesAux tc maxT ss cur curTok, tc c ≤ maxT := by
  intro ss
  induction ss with
  | nil =>
    intro cur curTok _ _ h2 h3 c hc
    by_cases hcur : cur = []
    · simp [packSentencesAux, hcur] at hc
    · simp [packSentencesAux, hcur] at hc
      subst hc
      rw [h2 hcur]
      exact h3
  | cons s ss ih =>
    intro cur curTok hws h1 h2 h3 c hc
    by_cases hbig : maxT < tc s
    · simp only [packSentencesAux, if_pos hbig] at hc
      rcases List.mem_append.mp hc with hc | hc
      · rcases List.mem_append.mp hc with hc | hc
        · by_cases hcur : cur = []
          · simp [hcur] at hc
          · simp [hcur] at hc
            subst hc
            rw [h2 hcur]
            exact h3
        · exact packWordsAux_le htc (wordsOf s) [] 0 (hws s (by simp)) (by simp)
            (by simp) (by omega) c hc
      · exact ih [] 0 (fun x hx => hws x (by simp [hx])) (by simp) (by simp)
          (by omega) c hc
    · by_cases hover : maxT < curTok + tc s
      · simp only [packSentencesAux, if_neg hbig, if_pos hover] at hc
        rcases List.mem_append.mp hc with hc | hc
        · by_cases hcur : cur = []
          · simp [hcur] at hc
          · simp [hcur] at hc
            subst hc
            rw [h2 hcur]
            exact h3
        · refine ih [s] (tc s) (fun x hx => hws x (by simp [hx])) (by simp) ?_
            (by omega) c hc
          intro _
          simp [joinSp]
      · simp only [packSentencesAux, if_neg hbig, if_neg hover] at hc
        refine ih (cur ++ [s]) (curTok + tc s) (fun x hx => hws x (by simp [hx]))
          (by simp) ?_ (by omega) c hc
        intro _
        by_cases hcur : cur = []
        · subst hcur
          simp [joinSp, h1 rfl]
        · rw [tc_joinSp_append htc cur s hcur, h2 hcur]

theorem packSentencesAux_words {tc : String → Nat} {maxT : Nat} :
    ∀ (ss cur : List String) (curTok : Nat),
      wordsJoin (packSentencesAux tc maxT ss cur curTok) = wordsJoin cur ++ wordsJoin ss := by
  intro ss
  induction ss with
  | nil =>
    intro cur curTok
    by_cases hcur : cur = []
    · simp [packSentencesAux, hcur, wordsJoin]
    · simp [packSentencesAux, hcur, wordsJoin, wordsOf_joinSp]
  | cons s ss ih =>
    intro cur curTok
    have hwords : ∀ w ∈ wordsOf s, wordsOf w = [w] := fun w hw => wordsOf_mem_wordsOf hw
    by_cases hbig : maxT < tc s
    · simp only [packSentencesAux, if_pos hbig]
      rw [wordsJoin_append, wordsJoin_append,
        packWordsAux_words (wordsOf s) [] 0 hwords, ih [] 0]
      by_cases hcur : cur = []
      · simp [hcur, wordsJoin]
      · simp [hcur, wordsJoin, wordsOf_joinSp]
    · by_cases hover : maxT < curTok + tc s
      · simp only [packSentencesAux, if_neg hbig, if_pos hover]
        rw [wordsJoin_append, ih [s] (tc s)]
        by_cases hcur : cur = []
        · simp [hcur, wordsJoin]
        · simp [hcur, wordsJoin, wordsOf_joinSp]
      · simp only [packSentencesAux, if_neg hbig, if_neg hover]
        rw [ih (cur ++ [s]) (curTok + tc s), wordsJoin_append]
        simp [wordsJoin]

theorem packSentencesAux_ne_nil {tc : String → Nat} {maxT : Nat} :
    ∀ (ss cur : List String) (curTok : Nat),
      (∀ s ∈ ss, maxT < tc s → wordsOf s ≠ []) →
      ss ≠ [] ∨ cur ≠ [] →
      packSentencesAux tc maxT ss cur curTok ≠ [] := by
  intro ss
  induction ss with
  | nil =>
    intro cur curTok _ h
    rcases h with h | h
    · exact absurd rfl h
    · simp [packSentencesAux, h]
  | cons s ss ih =>
    intro cur curTok hbigw _
    by_cases hbig : maxT < tc s
    · simp only [packSentencesAux, if_pos hbig]
      intro hcontra
      rcases List.append_eq_nil.mp hcontra with ⟨h2, _⟩
      rcases List.append_eq_nil.mp h2 with ⟨_, h3⟩
      exact packWordsAux_ne_nil (wordsOf s) [] 0
        (Or.inl (hbigw s (by simp) hbig)) h3
    · by_cases hover : maxT < curTok + tc s
      · simp only [packSentencesAux, if_neg hbig, if_pos hover]
        intro hcontra
        rcases List.append_eq_nil.mp hcontra with ⟨_, h2⟩
        exact ih [s] (tc s) (fun x hx hb => hbigw x (by simp [hx]) hb)
          (Or.inr (by simp)) h2
      · simp only [packSentencesAux, if_neg hbig, if_neg hover]
        exact ih (cur ++ [s]) (curTok + tc s) (fun x hx hb => hbigw x (by simp [hx]) hb)
          (Or.inr (by simp))

/-! ## Lemmas about the merge pass -/

theorem snd_mem_of_mem_enumFrom {α : Type} :
    ∀ (l : List α) (k : Nat) (p : Nat × α), p ∈ List.enumFrom k l → p.2 ∈ l := by
  intro l
  induction l with
  | nil => intro k p h; simp [List.enumFrom] at h
  | cons a t ih =>
    intro k p h
    rcases List.mem_cons.mp h with h | h
    · subst h; simp
    · exact List.mem_cons_of_mem a (ih (k + 1) p h)

theorem mergeAux_le {tc : String → Nat} {sec : Section} :
    ∀ (pairs : List (Nat × String)) (acc : List ChunkMetadata),
      (∀ p ∈ pairs, tc p.2 ≤ MAX_CHUNK_TOKENS) →
      (∀ c ∈ acc, c.token_count ≤ MAX_CHUNK_TOKENS) →
      ∀ c ∈ mergeAux tc sec pairs acc, c.token_count ≤ MAX_CHUNK_TOKENS := by
  intro pairs
  induction pairs with
  | nil =>
    intro acc _ hacc c hc
    simp only [mergeAux] at hc
    exact hacc c (List.mem_reverse.mp hc)
  | cons p rest ih =>
    obtain ⟨idx, t⟩ := p
    intro acc hpairs hacc c hc
    have ht : tc t ≤ MAX_CHUNK_TOKENS := hpairs (idx, t) (by simp)
    have hrest : ∀ p ∈ rest, tc p.2 ≤ MAX_CHUNK_TOKENS :=
      fun q hq => hpairs q (by simp [hq])
    by_cases hsm : tc t < MIN_CHUNK_TOKENS ∧ 0 < idx
    · cases acc with
      | nil =>
        simp only [mergeAux, if_pos hsm] at hc
        refine ih _ hrest ?_ c hc
        intro d hd
        simp at hd
        subst hd
        exact ht
      | cons prev tail =>
        by_cases hmg : tc (prev.text ++ " " ++ t) ≤ MAX_CHUNK_TOKENS
        · simp only [mergeAux, if_pos hsm, if_pos hmg] at hc
          refine ih _ hrest ?_ c hc
          intro d hd
          rcases List.mem_cons.mp hd with hd | hd
          · subst hd; exact hmg
          · exact hacc d (List.mem_cons_of_mem prev hd)
        · simp only [mergeAux, if_pos hsm, if_neg hmg] at hc
          refine ih _ hrest ?_ c hc
          intro d hd
          rcases List.mem_cons.mp hd with hd | hd
          · subst hd; exact ht
          · exact hacc d hd
    · simp only [mergeAux, if_neg hsm] at hc
      refine ih _ hrest ?_ c hc
      intro d hd
      rcases List.mem_cons.mp hd with hd | hd
      · subst hd; exact ht
      · exact hacc d hd

theorem mergeAux_words {tc : String → Nat} {sec : Section} :
    ∀ (pairs : List (Nat × String)) (acc : List ChunkMetadata),
      wordsJoin ((mergeAux tc sec pairs acc).map (fun c => c.text))
        = wordsJoin ((acc.reverse).map (fun c => c.text))
          ++ wordsJoin (pairs.map Prod.snd) := by
  intro pairs
  induction pairs with
  | nil =>
    intro acc
    simp [mergeAux, wordsJoin]
  | cons p rest ih =>
    obtain ⟨idx, t⟩ := p
    intro acc
    by_cases hsm : tc t < MIN_CHUNK_TOKENS ∧ 0 < idx
    · cases acc with
      | nil =>
        simp only [mergeAux, if_pos hsm]
        rw [ih]
        simp [wordsJoin, mkChunk]
      | cons prev tail =>
        by_cases hmg : tc (prev.text ++ " " ++ t) ≤ MAX_CHUNK_TOKENS
        · simp only [mergeAux, if_pos hsm, if_pos hmg]
          rw [ih]
          simp only [List.reverse_cons, List.map_append, List.map_cons, List.map_nil,
            wordsJoin_append, List.map, wordsJoin, List.flatten, wordsOf_append_space]
          simp [List.append_assoc]
        · simp only [mergeAux, if_pos hsm, if_neg hmg]
          rw [ih]
          simp only [List.reverse_cons, List.map_append, List.map_cons, List.map_nil,
            wordsJoin_append, wordsJoin, List.flatten, mkChunk]
          simp [List.append_assoc]
    · simp only [mergeAux, if_neg hsm]
      rw [ih]
      simp only [List.reverse_cons, List.map_append, List.map_cons, List.map_nil,
        wordsJoin_append, wordsJoin, List.flatten, mkChunk]
      simp [List.append_assoc]

theorem mergeAux_ne_nil {tc : String → Nat} {sec : Section} :
    ∀ (pairs : List (Nat × String)) (acc : List ChunkMetadata),
      acc ≠ [] ∨ pairs ≠ [] → mergeAux tc sec pairs acc ≠ [] := by
  intro pairs
  induction pairs with
  | nil =>
    intro acc h
    rcases h with h | h
    · simpa [mergeAux] using h
    · exact absurd rfl h
  | cons p rest ih =>
    obtain ⟨idx, t⟩ := p
    intro acc _
    by_cases hsm : tc t < MIN_CHUNK_TOKENS ∧ 0 < idx
    · cases acc with
      | nil =>
        simp only [mergeAux, if_pos hsm]
        exact ih _ (Or.inl (by simp))
      | cons prev tail =>
        by_cases hmg : tc (prev.text ++ " " ++ t) ≤ MAX_CHUNK_TOKENS
        · simp only [mergeAux, if_pos hsm, if_pos hmg]
          exact ih _ (Or.inl (by simp))
        · simp only [mergeAux, if_pos hsm, if_neg hmg]
          exact ih _ (Or.inl (by simp))
    · simp only [mergeAux, if_neg hsm]
      exact ih _ (Or.inl (by simp))

/-- Invariant relating a chunk to its output predecessor: if the newer chunk
is undersized then appending it to its predecessor must overflow the budget
(this is exactly the reason the merge pass left it unmerged). -/
def failedMergeRel (tc : String → Nat) (p n : ChunkMetadata) : Prop :=
  n.token_count < MIN_CHUNK_TOKENS → MAX_CHUNK_TOKENS < tc (p.text ++ " " ++ n.text)

theorem mergeAux_chain (tc : String → Nat) (sec : Section)
    (htc : ∀ a b, tc (a ++ " " ++ b) = tc a + tc b) :
    ∀ (ts : List String) (k : Nat) (acc : List ChunkMetadata),
      (k = 0 → acc = []) →
      (∀ c ∈ acc, c.token_count = tc c.text) →
      List.Chain' (fun n p => failedMergeRel tc p n) acc →
      List.Chain' (failedMergeRel tc) (mergeAux tc sec (List.enumFrom k ts) acc) := by
  intro ts
  induction ts with
  | nil =>
    intro k acc _ _ hch
    simp only [List.enumFrom, mergeAux]
    exact List.chain'_reverse.mpr hch
  | cons t ts ih =>
    intro k acc hk hinv hch
    simp only [List.enumFrom]
    by_cases hsm : tc t < MIN_CHUNK_TOKENS ∧ 0 < k
    · cases acc with
      | nil =>
        simp only [mergeAux, if_pos hsm]
        refine ih (k + 1) _ (by omega) ?_ ?_
        · intro d hd
          simp at hd
          subst hd
          rfl
        · simp
      | cons prev tail =>
        by_cases hmg : tc (prev.text ++ " " ++ t) ≤ MAX_CHUNK_TOKENS
        · simp only [mergeAux, if_pos hsm, if_pos hmg]
          refine ih (k + 1) _ (by omega) ?_ ?_
          · intro d hd
            rcases List.mem_cons.mp hd with hd | hd
            · subst hd; rfl
            · exact hinv d (List.mem_cons_of_mem prev hd)
          · rw [List.chain'_cons'] at hch ⊢
            refine ⟨?_, hch.2⟩
            intro y hy hsmall
            have hy2 := hch.1 y hy
            have hprevtok : prev.token_count = tc prev.text :=
              hinv prev (by simp)
            have hmtok : tc (prev.text ++ " " ++ t) = tc prev.text + tc t := htc _ _
            have hprevsmall : prev.token_count < MIN_CHUNK_TOKENS := by
              simp only at hsmall
              omega
            have hbig := hy2 hprevsmall
            have e1 : tc (y.text ++ " " ++ (prev.text ++ " " ++ t))
                = tc y.text + (tc prev.text + tc t) := by
              rw [htc, htc]
            have e2 : tc (y.text ++ " " ++ prev.text) = tc y.text + tc prev.text :=
              htc _ _
            show MAX_CHUNK_TOKENS < tc (y.text ++ " " ++ (prev.text ++ " " ++ t))
            omega
        · simp only [mergeAux, if_pos hsm, if_neg hmg]
          refine ih (k + 1) _ (by omega) ?_ ?_
          · intro d hd
            rcases List.mem_cons.mp hd with hd | hd
            · subst hd; rfl
            · exact hinv d hd
          · rw [List.chain'_cons']
            refine ⟨?_, hch⟩
            intro y hy
            cases tail with
            | nil =>
              simp at hy
              subst hy
              intro _
              simpa [mkChunk] using lt_of_not_le hmg
            | cons a b =>
              simp at hy
              subst hy
              intro _
              simpa [mkChunk] using lt_of_not_le hmg
    · simp only [mergeAux, if_neg hsm]
      refine ih (k + 1) _ (by omega) ?_ ?_
      · intro d hd
        rcases List.mem_cons.mp hd with hd | hd
        · subst hd; rfl
        · exact hinv d hd
      · cases acc with
        | nil => simp
        | cons prev tail =>
          rw [List.chain'_cons']
          refine ⟨?_, hch⟩
          intro y hy hsmall
          exfalso
          simp only [mkChunk] at hsmall
          have hk0 : k = 0 := by
            rcases Decidable.not_and_iff_or_not.mp hsm with h | h
            · exact absurd hsmall h
            · omega
          have := hk (hk0)
          simp at this

/-! ## Concrete tokenizer and sentence-splitter instances

`tc0` charges 40 tokens per non-whitespace character; it satisfies the
single-space additivity contract of the real (whitespace-pretokenizing)
WordPiece tokenizer and makes small inputs cross the 512-token budget.
`splitIdent` treats the whole text as one sentence; the other splitters
return fixed sentence lists for the concrete contents they are paired
with. -/

def tc0 (s : String) : Nat := 40 * (s.data.filter (fun c => !c.isWhitespace)).length

theorem tc0_add : ∀ a b : String, tc0 (a ++ " " ++ b) = tc0 a + tc0 b := by
  intro a b
  simp [tc0, String.data_append, List.filter_append, Nat.mul_add]

def splitIdent : String → List String := fun t => [t]

def splitC3 : String → List String := fun _ => ["abcd efgh ijkl", "m"]

def splitC4 : String → List String := fun _ => ["abcdefghijkl m", "n", "opqrstuvwxyz"]

def mkSec (content : String) : Section :=
  { title := "T", level := 2, content := content, chapter := 3,
    sectionId := "3.1", subsectionId := none, urlAnchor := "t" }

def secC1 : Section := mkSec "hello robots"

def secC3cex : Section := mkSec "a abcdefghijkl"

def secC3w : Section := mkSec "abcd efgh ijkl m"

def secC4 : Section := mkSec "abcdefghijkl m n opqrstuvwxyz"

/-! ## Claims C1–C4 -/

/-- C1: for every non-empty section content, every passage produced by
`chunk_section` has `token_count ≤ MAX_CHUNK_TOKENS` (512): the single-chunk
case emits the section only when its token count is within the budget, the
sentence-packing and word-level split never emit an over-budget chunk, and a
merge is performed only when the merged token count stays within the budget.
The tokenizer hypotheses are the contract of the external WordPiece counter:
token counts add over single-space joins, and no single whitespace-delimited
word of the input exceeds the budget (the real tokenizer caps a word at 100
characters, hence at most 100 tokens). -/
theorem chunk_section_token_le (tc : String → Nat) (sentSplit : String → List String)
    (sec : Section)
    (htc : ∀ a b : String, tc (a ++ " " ++ b) = tc a + tc b)
    (hw : ∀ s ∈ sentSplit sec.content, ∀ w ∈ wordsOf s, tc w ≤ MAX_CHUNK_TOKENS)
    (hne : sec.content ≠ "") :
    ∀ c ∈ chunk_section tc sentSplit sec, c.token_count ≤ MAX_CHUNK_TOKENS := by
  intro c hc
  by_cases hfit : tc sec.content ≤ MAX_CHUNK_TOKENS
  · simp only [chunk_section, if_pos hfit, List.mem_singleton] at hc
    subst hc
    exact hfit
  · simp only [chunk_section, if_neg hfit] at hc
    refine mergeAux_le _ _ ?_ (by simp) c hc
    intro p hp
    have hp2 : p.2 ∈ split_text_by_sentences tc MAX_CHUNK_TOKENS (sentSplit sec.content) :=
      snd_mem_of_mem_enumFrom _ 0 p hp
    exact packSentencesAux_le htc (sentSplit sec.content) [] 0 hw (by simp) (by simp)
      (by omega) p.2 hp2

/-- C1 witness: the theorem applied to the concrete tokenizer `tc0`, the
one-sentence splitter and the section `secC1`. -/
theorem chunk_section_token_le_witness :
    ((chunk_section tc0 splitIdent secC1).getD 0 default).token_count ≤ MAX_CHUNK_TOKENS :=
  chunk_section_token_le tc0 splitIdent secC1 tc0_add (by decide) (by decide)
    ((chunk_section tc0 splitIdent secC1).getD 0 default) (by decide)

/-- C2: for every non-empty section content, concatenating the passage texts
of `chunk_section` in output order reconstructs the section content up to
whitespace normalization (equal word sequences), and at least one passage is
produced.  The hypotheses are the contract of the external sentence detector:
it returns a non-empty sentence list whose words are exactly the words of the
input, and a sentence it reports as over-budget contains at least one word. -/
theorem chunk_section_no_content_loss (tc : String → Nat)
    (sentSplit : String → List String) (sec : Section)
    (hsplit : wordsJoin (sentSplit sec.content) = wordsOf sec.content)
    (hne2 : sentSplit sec.content ≠ [])
    (hbig : ∀ s ∈ sentSplit sec.content, MAX_CHUNK_TOKENS < tc s → wordsOf s ≠ [])
    (hne : sec.content ≠ "") :
    wordsOf (joinSp ((chunk_section tc sentSplit sec).map (fun c => c.text)))
        = wordsOf sec.content
      ∧ chunk_section tc sentSplit sec ≠ [] := by
  by_cases hfit : tc sec.content ≤ MAX_CHUNK_TOKENS
  · constructor
    · simp [chunk_section, if_pos hfit, joinSp, mkChunk]
    · simp [chunk_section, if_pos hfit]
  · have hts : split_text_by_sentences tc MAX_CHUNK_TOKENS (sentSplit sec.content) ≠ [] :=
      packSentencesAux_ne_nil (sentSplit sec.content) [] 0 hbig (Or.inl hne2)
    constructor
    · rw [wordsOf_joinSp]
      simp only [chunk_section, if_neg hfit]
      rw [mergeAux_words]
      rw [List.enum_eq_enumFrom, List.enumFrom_map_snd]
      simp only [split_text_by_sentences]
      rw [packSentencesAux_words]
      simpa [wordsJoin] using hsplit
    · simp only [chunk_section, if_neg hfit]
      refine mergeAux_ne_nil _ [] (Or.inr ?_)
      simpa [List.enum_eq_nil] using hts

/-- C2 witness: the theorem applied to `tc0`, the three-sentence splitter
`splitC4` and the section `secC4`, whose content splits into three chunks
and triggers a merge. -/
theorem chunk_section_no_content_loss_witness :
    wordsOf (joinSp ((chunk_section tc0 splitC4 secC4).map (fun c => c.text)))
        = wordsOf secC4.content
      ∧ chunk_section tc0 splitC4 secC4 ≠ [] :=
  chunk_section_no_content_loss tc0 splitC4 secC4 (by decide) (by decide)
    (by decide) (by decide)

/-- C3 counterexample: with the additive tokenizer `tc0` (40 tokens per
non-whitespace character) and the content "a abcdefghijkl" treated as one
sentence, the word-level split produces two passages whose first has
`token_count` 40 < 50: an undersized passage that is not the last passage of
the section, so undersized chunks are not confined to the final position. -/
theorem undersized_nonfinal_passage :
    (chunk_section tc0 splitIdent secC3cex).map (fun c => c.token_count) = [40, 480]
      ∧ 40 < MIN_CHUNK_TOKENS :=
  ⟨by decide, by decide⟩

/-- C3 amended: an undersized passage may also appear first (the merge pass
never merges position 0) or in the middle; what holds is that every
undersized passage at output position `i + 1` is there only because merging
it into its output predecessor would exceed `MAX_CHUNK_TOKENS`. -/
theorem undersized_passage_failed_merge (tc : String → Nat)
    (sentSplit : String → List String) (sec : Section)
    (htc : ∀ a b : String, tc (a ++ " " ++ b) = tc a + tc b)
    (hne : sec.content ≠ "")
    (i : Nat) (hi : i + 1 < (chunk_section tc sentSplit sec).length)
    (hu : ((chunk_section tc sentSplit sec).get ⟨i + 1, hi⟩).token_count
      < MIN_CHUNK_TOKENS) :
    MAX_CHUNK_TOKENS < tc (((chunk_section tc sentSplit sec).get ⟨i, by omega⟩).text
      ++ " " ++ ((chunk_section tc sentSplit sec).get ⟨i + 1, hi⟩).text) := by
  by_cases hfit : tc sec.content ≤ MAX_CHUNK_TOKENS
  · exfalso
    have hlen : (chunk_section tc sentSplit sec).length = 1 := by
      simp [chunk_section, if_pos hfit]
    omega
  · have heq : chunk_section tc sentSplit sec
        = mergeAux tc sec (List.enumFrom 0
            (split_text_by_sentences tc MAX_CHUNK_TOKENS (sentSplit sec.content))) [] := by
      simp [chunk_section, if_neg hfit, List.enum_eq_enumFrom]
    have hchain := mergeAux_chain tc sec htc
      (split_text_by_sentences tc MAX_CHUNK_TOKENS (sentSplit sec.content)) 0 []
      (fun _ => rfl) (by simp) (by simp)
    rw [← heq] at hchain
    have hstep := List.chain'_iff_get.mp hchain i (by omega)
    exact hstep hu

/-- C3 amended witness: with `tc0`, the sentences "abcd efgh ijkl" (480
tokens) and "m" (40 tokens) produce a trailing undersized passage whose merge
was attempted and failed (480 + 40 > 512). -/
theorem undersized_passage_failed_merge_witness :
    ((chunk_section tc0 splitC3 secC3w).get ⟨1, by decide⟩).token_count < MIN_CHUNK_TOKENS
      ∧ MAX_CHUNK_TOKENS < tc0 (((chunk_section tc0 splitC3 secC3w).get ⟨0, by decide⟩).text
          ++ " " ++ ((chunk_section tc0 splitC3 secC3w).get ⟨1, by decide⟩).text) :=
  ⟨by decide,
    undersized_passage_failed_merge tc0 splitC3 secC3w tc0_add (by decide) 0
      (by decide) (by decide)⟩

/-- C4: the merge pass does not re-index `chunk_index`.  With `tc0`, the
sentences "abcdefghijkl m" (over budget, word-split into 480- and 40-token
chunks), "n" (40) and "opqrstuvwxyz" (480), the 40-token chunk "n" at
enumerate position 2 merges into its predecessor, and the output carries
`chunk_index` values [0, 1, 3] — not the contiguous [0, 1, 2] promised by the
`ChunkMetadata.chunk_index` docstring ("Sequential index within the section
(0-based)") and the specification. -/
theorem chunk_index_gap :
    (chunk_section tc0 splitC4 secC4).map (fun c => c.chunk_index) = [0, 1, 3] := by
  decide

/-! ## `parse_markdown_sections` (`chunking.py`) -/

/-- Replace every maximal run of characters satisfying `p` by the single
character `r` (the two `re.sub(..., '-')` collapsing steps of
`create_url_anchor`).  `inRun` records whether the previous character was in
a run. -/
def collapseRunAux (p : Char → Bool) (r : Char) : List Char → Bool → List Char
  | [], _ => []
  | c :: cs, inRun =>
    if p c then
      (if inRun then collapseRunAux p r cs true else r :: collapseRunAux p r cs true)
    else c :: collapseRunAux p r cs false

/-- Strip a given character from both ends (Python `str.strip('-')`). -/
def stripChar (r : Char) (l : List Char) : List Char :=
  ((l.dropWhile (fun c => c = r)).reverse.dropWhile (fun c => c = r)).reverse

/-- `create_url_anchor(title)`: lower-case and strip, drop characters that
are not word characters, whitespace or hyphens, collapse whitespace and
underscore runs to a hyphen, collapse hyphen runs, strip hyphens.
(ASCII classes model the Python `\w`/`\s` classes.) -/
def create_url_anchor (title : String) : String :=
  let a1 := trimCh (title.data.map Char.toLower)
  let a2 := a1.filter (fun c => c.isAlphanum || c = '_' || c.isWhitespace || c = '-')
  let a3 := collapseRunAux (fun c => c.isWhitespace || c = '_') '-' a2 false
  let a4 := collapseRunAux (fun c => c = '-') '-' a3 false
  String.mk (stripChar '-' a4)

/-- Model of `re.match(r'^(#{1,6})\s+(.+)$', line)`: 1–6 leading hash marks
followed by at least one whitespace character and at least one further
character; the title is the remainder stripped (which is exactly what the
greedy groups plus `.strip()` produce). -/
def headerMatch (line : String) : Option (Nat × String) :=
  let n := (line.data.takeWhile (fun c => c = '#')).length
  let rest := line.data.dropWhile (fun c => c = '#')
  if 1 ≤ n ∧ n ≤ 6 then
    match rest with
    | c :: _ :: _ => if c.isWhitespace then some (n, String.mk (trimCh rest)) else none
    | _ => none
  else none

/-- `section_counters[level] += 1` followed by the reset of all deeper
levels.  Counters are a function from level to count. -/
def bumpCounters (c : Nat → Nat) (level : Nat) : Nat → Nat :=
  fun i => if i = level then c level + 1 else if level < i then 0 else c i

/-- The dotted section id `f"{chapter}.{k}"`. -/
def mkId (chapter k : Nat) : String := numStr chapter ++ "." ++ numStr k

/-- Model of Python `'.'.join(l)`. -/
def joinDot : List String → String
  | [] => ""
  | [x] => x
  | x :: y :: ys => x ++ "." ++ joinDot (y :: ys)

/-- The `(section_id, subsection_id)` computation of
`parse_markdown_sections` for a heading of the given level, using the
already-bumped counters. -/
def sectionIds (chapter : Nat) (c : Nat → Nat) (level : Nat) : String × Option String :=
  if level = 1 then (numStr chapter, none)
  else if level = 2 then (mkId chapter (c 2), none)
  else (mkId chapter (c 2),
    some (numStr chapter ++ "." ++
      joinDot ((List.range (level - 1)).map (fun j => numStr (c (j + 2))))))

/-- Saving the previous section: join the accumulated lines, strip, and keep
the section only when the body is non-empty. -/
def flushSection (cur : Option Section) (content : List String) (acc : List Section) :
    List Section :=
  match cur with
  | none => acc
  | some s =>
    let body := trimStr (joinNl content)
    if body = "" then acc else acc ++ [{ s with content := body }]

/-- The line loop of `parse_markdown_sections`, carrying
`(current_section, current_content, section_counters, sections)`.  Lines
before any heading are ignored (`if current_section:` is false). -/
def parseLinesAux (chapter : Nat) :
    List String → Option Section → List String → (Nat → Nat) → List Section → List Section
  | [], cur, content, _, acc => flushSection cur content acc
  | line :: rest, cur, content, counters, acc =>
    match headerMatch line with
    | some (level, title) =>
      let acc2 := flushSection cur content acc
      let counters2 := bumpCounters counters level
      let ids := sectionIds chapter counters2 level
      parseLinesAux chapter rest
        (some { title := title, level := level, content := "", chapter := chapter,
                sectionId := ids.1, subsectionId := ids.2,
                urlAnchor := create_url_anchor title })
        [] counters2 acc2
    | none =>
      match cur with
      | some _ => parseLinesAux chapter rest cur (content ++ [line]) counters acc
      | none => parseLinesAux chapter rest none content counters acc

/-- `parse_markdown_sections(markdown_text, chapter, source_file)` (the
`source_file` argument is only logged). -/
def parse_markdown_sections (markdown_text : String) (chapter : Nat) : List Section :=
  parseLinesAux chapter (splitLines markdown_text) none [] (fun _ => 0) []

/-! ## Lemmas about the parser -/

theorem headerMatch_level_pos {l : String} {p : Nat × String}
    (h : headerMatch l = some p) : 1 ≤ p.1 := by
  simp only [headerMatch] at h
  split at h
  · split at h
    · split at h
      · injection h with h2
        rw [← h2]
        exact (by assumption : 1 ≤ _ ∧ _).1
      · exact absurd h (by simp)
    · exact absurd h (by simp)
  · exact absurd h (by simp)

theorem mkId_inj {chapter k k2 : Nat} (h : mkId chapter k = mkId chapter k2) : k = k2 := by
  have hdata := congrArg String.data h
  simp only [mkId, String.data_append] at hdata
  have h2 : (numStr k).data = (numStr k2).data := List.append_cancel_left hdata
  have h3 : numStr k = numStr k2 := by
    cases hk : numStr k
    cases hk2 : numStr k2
    rw [hk] at h2
    rw [hk2] at h2
    simp at h2
    simp [h2]
  exact numStr_injective h3

theorem bumpCounters_two {c : Nat → Nat} {level : Nat} (h : 2 ≤ level) :
    bumpCounters c level 2 = if level = 2 then c 2 + 1 else c 2 := by
  by_cases h2 : level = 2
  · simp [bumpCounters, h2]
  · have : ¬ (level < 2) := by omega
    simp [bumpCounters, h2, Ne.symm h2, this]

theorem flushSection_invs (chapter : Nat) (c2 : Nat) (cur : Option Section)
    (content : List String) (acc : List Section)
    (hA : ∀ s ∈ acc, s.level = 2 → ∃ k, k ≤ c2 ∧ s.sectionId = mkId chapter k)
    (hB : (acc.filter (fun s => s.level == 2)).Pairwise (fun a b => a.sectionId ≠ b.sectionId))
    (hC : ∀ s, cur = some s → s.level = 2 →
        s.sectionId = mkId chapter c2
        ∧ ∀ t ∈ acc, t.level = 2 → ∃ k, k < c2 ∧ t.sectionId = mkId chapter k) :
    (∀ s ∈ flushSection cur content acc, s.level = 2 → ∃ k, k ≤ c2 ∧ s.sectionId = mkId chapter k)
    ∧ ((flushSection cur content acc).filter
        (fun s => s.level == 2)).Pairwise (fun a b => a.sectionId ≠ b.sectionId) := by
  cases cur with
  | none => exact ⟨hA, hB⟩
  | some s =>
    by_cases hbody : trimStr (joinNl content) = ""
    · simpa [flushSection, hbody] using ⟨hA, hB⟩
    · have hout : flushSection (some s) content acc
          = acc ++ [{ s with content := trimStr (joinNl content) }] := by
        simp [flushSection, hbody]
      rw [hout]
      constructor
      · intro t ht hlvl
        rcases List.mem_append.mp ht with ht | ht
        · exact hA t ht hlvl
        · simp at ht
          subst ht
          simp only at hlvl
          obtain ⟨hid, _⟩ := hC s rfl hlvl
          exact ⟨c2, Nat.le_refl c2, hid⟩
      · by_cases hlvl : s.level = 2
        · rw [List.filter_append]
          have hfs : ([{ s with content := trimStr (joinNl content) }].filter
              (fun s => s.level == 2)) = [{ s with content := trimStr (joinNl content) }] := by
            simp [hlvl]
          rw [hfs, List.pairwise_append]
          refine ⟨hB, List.pairwise_singleton _ _, ?_⟩
          intro a ha b hb
          simp at hb
          subst hb
          obtain ⟨ha2, halvl⟩ := List.mem_filter.mp ha
          obtain ⟨hid, hlt⟩ := hC s rfl hlvl
          obtain ⟨k, hk, haid⟩ := hlt a ha2 (by simpa using halvl)
          simp only
          rw [haid, hid]
          intro hcontra
          exact absurd (mkId_inj hcontra) (by omega)
        · rw [List.filter_append]
          have hfs : ([{ s with content := trimStr (joinNl content) }].filter
              (fun s => s.level == 2)) = [] := by
            simp [hlvl]
          rw [hfs, List.append_nil]
          exact hB

theorem parseLinesAux_level2_inv (chapter : Nat) :
    ∀ (lines : List String) (cur : Option Section) (content : List String)
      (counters : Nat → Nat) (acc : List Section),
      (∀ l ∈ lines, ∀ p : Nat × String, headerMatch l = some p → p.1 ≠ 1) →
      (∀ s ∈ acc, s.level = 2 → ∃ k, k ≤ counters 2 ∧ s.sectionId = mkId chapter k) →
      ((acc.filter (fun s => s.level == 2)).Pairwise (fun a b => a.sectionId ≠ b.sectionId)) →
      (∀ s, cur = some s → s.level = 2 →
          s.sectionId = mkId chapter (counters 2)
          ∧ ∀ t ∈ acc, t.level = 2 → ∃ k, k < counters 2 ∧ t.sectionId = mkId chapter k) →
      ((parseLinesAux chapter lines cur content counters acc).filter
          (fun s => s.level == 2)).Pairwise (fun a b => a.sectionId ≠ b.sectionId) := by
  intro lines
  induction lines with
  | nil =>
    intro cur content counters acc _ hA hB hC
    exact (flushSection_invs chapter (counters 2) cur content acc hA hB hC).2
  | cons line rest ih =>
    intro cur content counters acc hno1 hA hB hC
    rcases hhm : headerMatch line with _ | ⟨level, title⟩
    · cases cur with
      | none =>
        simp only [parseLinesAux, hhm]
        exact ih none content counters acc (fun l hl => hno1 l (by simp [hl])) hA hB hC
      | some s =>
        simp only [parseLinesAux, hhm]
        exact ih (some s) (content ++ [line]) counters acc
          (fun l hl => hno1 l (by simp [hl])) hA hB hC
    · simp only [parseLinesAux, hhm]
      have hlpos : 1 ≤ level := headerMatch_level_pos hhm
      have hl1 : level ≠ 1 := by
        have := hno1 line (by simp) (level, title) hhm
        simpa using this
      have hl2 : 2 ≤ level := by omega
      obtain ⟨hA2, hB2⟩ := flushSection_invs chapter (counters 2) cur content acc hA hB hC
      have hb2 : bumpCounters counters level 2
          = if level = 2 then counters 2 + 1 else counters 2 := bumpCounters_two hl2
      refine ih _ [] (bumpCounters counters level) (flushSection cur content acc)
        (fun l hl => hno1 l (by simp [hl])) ?_ hB2 ?_
      · intro t ht hlvl
        obtain ⟨k, hk, hid⟩ := hA2 t ht hlvl
        refine ⟨k, ?_, hid⟩
        rw [hb2]
        by_cases hcase : level = 2
        · rw [if_pos hcase]; omega
        · rw [if_neg hcase]; omega
      · intro t ht hlvl
        injection ht with ht
        subst ht
        simp only at hlvl
        subst hlvl
        have hcc : bumpCounters counters 2 2 = counters 2 + 1 := by
          simp [bumpCounters]
        rw [hcc]
        constructor
        · simp [sectionIds, hcc]
        · intro u hu hul
          obtain ⟨k, hk, hid⟩ := hA2 u hu hul
          exact ⟨k, by omega, hid⟩

/-! ## Claims C5 and C10 -/

/-- C5 counterexample: two sibling level-3 sections under the same (absent
level-2) parent both receive `section_id` "3.0" — `section_id` values are not
unique within a chapter, and siblings at the same level can share one. -/
theorem sibling_sections_share_id :
    (parse_markdown_sections "### A\nx\n### B\ny" 3).map (fun s => (s.level, s.sectionId))
      = [(3, "3.0"), (3, "3.0")] := by
  decide

/-- C5 amended: `section_id` values are not unique within a chapter in
general — all level-1 sections share the chapter id, and sections deeper than
level 2 carry their enclosing level-2 id (they are distinguished by
`subsection_id` instead, as the counterexample shows).  What holds is that
the level-2 sections of a document are pairwise distinct as long as no
level-1 heading resets the level-2 counter; in particular two sibling
level-2 sections under the same parent never share a `section_id`. -/
theorem parse_level2_ids_distinct (text : String) (chapter : Nat)
    (hno1 : ∀ l ∈ splitLines text, (headerMatch l).map Prod.fst ≠ some 1) :
    ((parse_markdown_sections text chapter).filter (fun s => s.level == 2)).Pairwise
      (fun a b => a.sectionId ≠ b.sectionId) := by
  apply parseLinesAux_level2_inv chapter (splitLines text) none [] (fun _ => 0) []
  · intro l hl p hp
    have h2 := hno1 l hl
    rw [hp] at h2
    intro hcontra
    apply h2
    simp [hcontra]
  · intro s hs
    simp at hs
  · simp
  · intro s hs
    simp at hs

/-- C5 amended witness: a document with two level-2 siblings gets distinct
ids "3.1" and "3.2". -/
theorem parse_level2_ids_distinct_witness :
    ((parse_markdown_sections "## A\nx\n## B\ny" 3).filter (fun s => s.level == 2)).Pairwise
      (fun a b => a.sectionId ≠ b.sectionId) :=
  parse_level2_ids_distinct "## A\nx\n## B\ny" 3 (by decide)

/-- Lines carrying no heading are ignored while no section is open: the
parser state passes through them unchanged. -/
theorem parseLinesAux_no_header (chapter : Nat) :
    ∀ (pre rest : List String) (content : List String) (counters : Nat → Nat)
      (acc : List Section), (∀ l ∈ pre, headerMatch l = none) →
      parseLinesAux chapter (pre ++ rest) none content counters acc
        = parseLinesAux chapter rest none content counters acc := by
  intro pre
  induction pre with
  | nil => intro rest content counters acc _; rfl
  | cons l ls ih =>
    intro rest content counters acc h
    have hl : headerMatch l = none := h l (by simp)
    simp only [List.cons_append, parseLinesAux, hl]
    exact ih rest content counters acc (fun x hx => h x (by simp [hx]))

/-- C10: lines before the first heading are silently discarded by
`parse_markdown_sections` — parsing is unchanged if they are removed, they
appear in no returned section, and a document whose lines are all
heading-free (in particular one whose only text precedes its first heading)
yields zero sections. -/
theorem parse_discards_pre_heading_lines (text : String) (chapter : Nat)
    (pre rest : List String)
    (hsplit : splitLines text = pre ++ rest)
    (hpre : ∀ l ∈ pre, headerMatch l = none) :
    parse_markdown_sections text chapter
        = parseLinesAux chapter rest none [] (fun _ => 0) []
      ∧ (rest = [] → parse_markdown_sections text chapter = []) := by
  have key : parse_markdown_sections text chapter
      = parseLinesAux chapter rest none [] (fun _ => 0) [] := by
    unfold parse_markdown_sections
    rw [hsplit]
    exact parseLinesAux_no_header chapter pre rest [] (fun _ => 0) [] hpre
  refine ⟨key, ?_⟩
  intro hr
  rw [key, hr]
  rfl

/-- C10 witness: a two-line document with no heading parses to zero
sections. -/
theorem parse_discards_pre_heading_lines_witness :
    parse_markdown_sections "hello\nworld" 0 = [] :=
  (parse_discards_pre_heading_lines "hello\nworld" 0 ["hello", "world"] []
    (by decide) (by decide)).2 rfl

/-! ## A stable descending sort

Python `list.sort(key=..., reverse=True)` is a stable sort: equal keys keep
their original relative order, and `reverse=True` does not disturb that.
It is modelled by insertion sort that inserts an element in front of the
first position whose key is not larger — later elements never overtake
earlier ones with an equal key. -/

def insertDescBy {α R : Type} [LinearOrder R] (key : α → R) (x : α) : List α → List α
  | [] => [x]
  | y :: ys => if key y ≤ key x then x :: y :: ys else y :: insertDescBy key x ys

def sortDescBy {α R : Type} [LinearOrder R] (key : α → R) : List α → List α
  | [] => []
  | x :: xs => insertDescBy key x (sortDescBy key xs)

theorem mem_insertDescBy {α R : Type} [LinearOrder R] (key : α → R) (x : α) :
    ∀ (l : List α) (z : α), z ∈ insertDescBy key x l ↔ z = x ∨ z ∈ l := by
  intro l
  induction l with
  | nil => intro z; simp [insertDescBy]
  | cons y ys ih =>
    intro z
    by_cases h : key y ≤ key x
    · simp [insertDescBy, h]
    · simp only [insertDescBy, if_neg h, List.mem_cons, ih]
      tauto

theorem length_insertDescBy {α R : Type} [LinearOrder R] (key : α → R) (x : α) :
    ∀ l : List α, (insertDescBy key x l).length = l.length + 1 := by
  intro l
  induction l with
  | nil => rfl
  | cons y ys ih =>
    by_cases h : key y ≤ key x
    · simp [insertDescBy, h]
    · simp [insertDescBy, h, ih]

theorem pairwise_insertDescBy {α R : Type} [LinearOrder R] (key : α → R) (x : α) :
    ∀ l : List α, l.Pairwise (fun a b => key b ≤ key a) →
      (insertDescBy key x l).Pairwise (fun a b => key b ≤ key a) := by
  intro l
  induction l with
  | nil => intro _; simp [insertDescBy]
  | cons y ys ih =>
    intro hp
    rw [List.pairwise_cons] at hp
    by_cases h : key y ≤ key x
    · rw [insertDescBy, if_pos h, List.pairwise_cons]
      refine ⟨?_, List.pairwise_cons.mpr hp⟩
      intro z hz
      rcases List.mem_cons.mp hz with hz | hz
      · subst hz; exact h
      · exact le_trans (hp.1 z hz) h
    · rw [insertDescBy, if_neg h, List.pairwise_cons]
      refine ⟨?_, ih hp.2⟩
      intro z hz
      rcases (mem_insertDescBy key x ys z).mp hz with hz | hz
      · subst hz; exact le_of_lt (lt_of_not_le h)
      · exact hp.1 z hz

theorem sortDescBy_pairwise {α R : Type} [LinearOrder R] (key : α → R) :
    ∀ l : List α, (sortDescBy key l).Pairwise (fun a b => key b ≤ key a) := by
  intro l
  induction l with
  | nil => simp [sortDescBy]
  | cons x xs ih => exact pairwise_insertDescBy key x _ ih

theorem length_sortDescBy {α R : Type} [LinearOrder R] (key : α → R) :
    ∀ l : List α, (sortDescBy key l).length = l.length := by
  intro l
  induction l with
  | nil => rfl
  | cons x xs ih => simp [sortDescBy, length_insertDescBy, ih]

theorem mem_sortDescBy {α R : Type} [LinearOrder R] (key : α → R) :
    ∀ (l : List α) (z : α), z ∈ sortDescBy key l ↔ z ∈ l := by
  intro l
  induction l with
  | nil => intro z; simp [sortDescBy]
  | cons x xs ih =>
    intro z
    rw [sortDescBy, mem_insertDescBy]
    simp [ih]

theorem filter_insertDescBy {α R : Type} [LinearOrder R] (key : α → R) (q : R)
    (P : α → Bool) (hP : ∀ a, P a = true → key a = q) (x : α) :
    ∀ l : List α, (insertDescBy key x l).filter P = (x :: l).filter P := by
  intro l
  induction l with
  | nil => rfl
  | cons y ys ih =>
    by_cases h : key y ≤ key x
    · rw [insertDescBy, if_pos h]
    · rw [insertDescBy, if_neg h]
      by_cases hx : P x = true
      · by_cases hy : P y = true
        · exfalso
          have hqx := hP x hx
          have hqy := hP y hy
          exact h (le_of_eq (hqy.trans hqx.symm))
        · have hy2 : P y = false := Bool.eq_false_iff.mpr hy
          simp only [List.filter_cons, hy2, hx, ih]
          simp [List.filter_cons, hx, hy2]
      · have hx2 : P x = false := Bool.eq_false_iff.mpr hx
        simp only [List.filter_cons, hx2, ih]
        simp [List.filter_cons, hx2]

theorem sortDescBy_filter {α R : Type} [LinearOrder R] (key : α → R) (q : R)
    (P : α → Bool) (hP : ∀ a, P a = true → key a = q) :
    ∀ l : List α, (sortDescBy key l).filter P = l.filter P := by
  intro l
  induction l with
  | nil => rfl
  | cons x xs ih =>
    rw [sortDescBy, filter_insertDescBy key q P hP]
    simp only [List.filter_cons, ih]

theorem sortDescBy_ne_nil {α R : Type} [LinearOrder R] (key : α → R)
    {l : List α} (h : l ≠ []) : sortDescBy key l ≠ [] := by
  intro hcontra
  have hlen := length_sortDescBy key l
  rw [hcontra] at hlen
  exact h (List.length_eq_zero.mp hlen.symm)

/-! ## Ephemeral vector store (`selected_text.py`)

Embedding vectors and similarity scores are floating point in the source;
they are modelled over an arbitrary `LinearOrderedCommRing` carrier so that
the order- and structure-level properties proved here are independent of the
numeric representation (witnesses instantiate it with `Int`). -/

/-- The `EphemeralChunk` dataclass. -/
structure EphemeralChunk (R : Type) where
  chunk_id : String
  text : String
  embedding : List R
  chunk_index : Nat
deriving DecidableEq, Repr, Inhabited

/-- The `EphemeralSearchResult` dataclass. -/
structure EphemeralSearchResult (R : Type) where
  chunk_id : String
  score : R
  text : String
  chunk_index : Nat
deriving DecidableEq, Repr, Inhabited

/-- The `EphemeralVectorStore` class: just the stored chunk list. -/
structure EphemeralVectorStore (R : Type) where
  chunks : List (EphemeralChunk R)
deriving DecidableEq, Repr, Inhabited

/-- `np.dot` on (already normalized) vectors. -/
def dot {R : Type} [Mul R] [AddCommMonoid R] (a b : List R) : R :=
  (List.zipWith (fun x y => x * y) a b).sum

/-- `EphemeralVectorStore.search(query_embedding, top_k, score_threshold)`:
dot-product scores, stable sort descending, slice to `top_k`, then filter by
the threshold. -/
def EphemeralVectorStore.search {R : Type} [LinearOrderedCommRing R]
    (store : EphemeralVectorStore R) (query_embedding : List R)
    (top_k : Nat) (score_threshold : R) : List (EphemeralSearchResult R) :=
  if store.chunks = [] then []
  else
    let scores := store.chunks.map (fun c => (c, dot query_embedding c.embedding))
    let so := sortDescBy (fun p => p.2) scores
    ((so.take top_k).filter (fun p => decide (score_threshold ≤ p.2))).map
      (fun p => { chunk_id := p.1.chunk_id, score := p.2, text := p.1.text,
                  chunk_index := p.1.chunk_index })

/-! ## Selected-text service (`selected_text.py`) -/

/-- `f"selected-{i:03d}"`: zero-pad to width 3 (wider numbers unpadded). -/
def pad3 (i : Nat) : String :=
  (if i < 10 then "00" else if i < 100 then "0" else "") ++ numStr i

/-- `SelectedTextService.chunk_selected_text(text)`: one chunk when the text
fits in `max_chunk_tokens`, otherwise the sentence split. -/
def chunk_selected_text (tc : String → Nat) (sentSplit : String → List String)
    (max_chunk_tokens : Nat) (text : String) : List String :=
  if tc text ≤ max_chunk_tokens then [text]
  else split_text_by_sentences tc max_chunk_tokens (sentSplit text)

/-- `SelectedTextService.create_ephemeral_store(selected_text)`: chunk,
embed (external `embed_texts`), and number the chunks `selected-000`,
`selected-001`, ... in order. -/
def create_ephemeral_store {R : Type} (tc : String → Nat)
    (sentSplit : String → List String) (max_chunk_tokens : Nat)
    (embed_texts : List String → List (List R)) (selected_text : String) :
    EphemeralVectorStore R :=
  let text_chunks := chunk_selected_text tc sentSplit max_chunk_tokens selected_text
  let embeddings := embed_texts text_chunks
  { chunks := (List.zip text_chunks embeddings).enum.map
      (fun p => { chunk_id := "selected-" ++ pad3 p.1, text := p.2.1,
                  embedding := p.2.2, chunk_index := p.1 }) }

/-- The `Citation` schema (`models/schemas.py`) as used by the agent and the
selected-text service. -/
structure Citation (R : Type) where
  chunk_id : String
  chapter : Nat
  sectionId : String
  url_anchor : String
  relevance_score : R
  text_preview : String
  source : String
deriving DecidableEq, Repr, Inhabited

/-- The pure tail of `SelectedTextService.answer_query`: given the search
results of the ephemeral store and the (external) agent's answer and
citations, return the not-found response on empty retrieval, otherwise the
answer with the citations filtered down to `selected-` ids. -/
def answer_query {R : Type} (search_results : List (EphemeralSearchResult R))
    (agentAnswer : String) (agentCitations : List (Citation R)) :
    String × List (Citation R) :=
  if search_results.isEmpty then ("Information not found in the selected text.", [])
  else (agentAnswer, agentCitations.filter (fun c => strStartsWith c.chunk_id "selected-"))

/-! ## Claims C6 and C7 -/

/-- C6: every chunk of an ephemeral store has id `"selected-"` followed by
the zero-padded chunk order index (and `chunk_index` equal to its position),
and every Citation returned by `answer_query` has an id starting with
`selected-` — non-matching agent citations are filtered out. -/
theorem selected_text_id_isolation (R : Type) (tc : String → Nat)
    (sentSplit : String → List String) (max_chunk_tokens : Nat)
    (embed_texts : List String → List (List R)) (selected_text : String)
    (search_results : List (EphemeralSearchResult R)) (agentAnswer : String)
    (agentCitations : List (Citation R)) :
    (∀ (i : Nat) (hi : i < (create_ephemeral_store tc sentSplit max_chunk_tokens
          embed_texts selected_text).chunks.length),
        ((create_ephemeral_store tc sentSplit max_chunk_tokens embed_texts
            selected_text).chunks.get ⟨i, hi⟩).chunk_id = "selected-" ++ pad3 i
        ∧ ((create_ephemeral_store tc sentSplit max_chunk_tokens embed_texts
            selected_text).chunks.get ⟨i, hi⟩).chunk_index = i)
    ∧ ∀ c ∈ (answer_query search_results agentAnswer agentCitations).2,
        strStartsWith c.chunk_id "selected-" = true := by
  constructor
  · intro i hi
    constructor <;>
      simp [create_ephemeral_store, List.get_eq_getElem, List.enum_eq_enumFrom,
        List.getElem_enumFrom]
  · intro c hc
    by_cases hres : search_results.isEmpty
    · simp [answer_query, hres] at hc
    · simp only [answer_query, hres, Bool.false_eq_true, if_false] at hc
      exact (List.mem_filter.mp hc).2

/-- A two-citation list for the C6 witness: one citation from the ephemeral
namespace, one from the persistent namespace (which the filter drops). -/
def citW : Citation Int :=
  { chunk_id := "selected-000", chapter := 0, sectionId := "selected",
    url_anchor := "", relevance_score := 1, text_preview := "hi", source := "sel" }

def citPersistent : Citation Int :=
  { chunk_id := "b2c3", chapter := 3, sectionId := "3.2",
    url_anchor := "ik", relevance_score := 1, text_preview := "x", source := "ch" }

def embedW : List String → List (List Int) := fun ts => ts.map (fun _ => [1])

def resW : EphemeralSearchResult Int :=
  { chunk_id := "selected-000", score := 1, text := "hi", chunk_index := 0 }

/-- C6 witness: a one-chunk store built from the text "hi" gets id
`selected-000`, and the citation filter keeps only `selected-` ids. -/
theorem selected_text_id_isolation_witness :
    ((create_ephemeral_store tc0 splitIdent 512 embedW "hi").chunks.get
        ⟨0, by decide⟩).chunk_id = "selected-" ++ pad3 0
      ∧ strStartsWith citW.chunk_id "selected-" = true :=
  ⟨((selected_text_id_isolation Int tc0 splitIdent 512 embedW "hi" [resW] "ans"
      [citW, citPersistent]).1 0 (by decide)).1,
   (selected_text_id_isolation Int tc0 splitIdent 512 embedW "hi" [resW] "ans"
      [citW, citPersistent]).2 citW (by decide)⟩

/-- C7: `EphemeralVectorStore.search` returns at most `top_k` results, in
descending score order, each with score at least `score_threshold`, and each
score is the dot product of the query with the stored chunk's embedding. -/
theorem search_spec (R : Type) [LinearOrderedCommRing R]
    (store : EphemeralVectorStore R) (query_embedding : List R)
    (top_k : Nat) (score_threshold : R) :
    (store.search query_embedding top_k score_threshold).length ≤ top_k
    ∧ (store.search query_embedding top_k score_threshold).Pairwise
        (fun a b => b.score ≤ a.score)
    ∧ ∀ r ∈ store.search query_embedding top_k score_threshold,
        score_threshold ≤ r.score
        ∧ ∃ c ∈ store.chunks, r.chunk_id = c.chunk_id
            ∧ r.score = dot query_embedding c.embedding := by
  by_cases hempty : store.chunks = []
  · simp [EphemeralVectorStore.search, hempty]
  · simp only [EphemeralVectorStore.search, if_neg hempty]
    refine ⟨?_, ?_, ?_⟩
    · rw [List.length_map]
      calc (List.filter _ ((sortDescBy (fun p => p.2)
              (store.chunks.map (fun c => (c, dot query_embedding c.embedding)))).take
                top_k)).length
          ≤ ((sortDescBy (fun p => p.2)
              (store.chunks.map (fun c => (c, dot query_embedding c.embedding)))).take
                top_k).length := List.length_filter_le _ _
        _ ≤ top_k := List.length_take_le _ _
    · have hpair : List.Pairwise (fun a b : EphemeralChunk R × R => b.2 ≤ a.2)
          (List.filter (fun p => decide (score_threshold ≤ p.2))
            (List.take top_k (sortDescBy (fun p => p.2)
              (store.chunks.map (fun c => (c, dot query_embedding c.embedding)))))) :=
        List.Pairwise.sublist
          (List.Sublist.trans (List.filter_sublist _) (List.take_sublist _ _))
          (sortDescBy_pairwise (fun p : EphemeralChunk R × R => p.2) _)
      exact List.Pairwise.map _ (fun a b hab => hab) hpair
    · intro r hr
      rcases List.mem_map.mp hr with ⟨p, hp, hr2⟩
      have hfil := List.mem_filter.mp hp
      have hthr : score_threshold ≤ p.2 := of_decide_eq_true hfil.2
      have hmem1 : p ∈ sortDescBy (fun p => p.2)
          (store.chunks.map (fun c => (c, dot query_embedding c.embedding))) :=
        (List.take_sublist _ _).subset hfil.1
      have hmem2 : p ∈ store.chunks.map (fun c => (c, dot query_embedding c.embedding)) :=
        (mem_sortDescBy _ _ p).mp hmem1
      rcases List.mem_map.mp hmem2 with ⟨c, hc, hpc⟩
      subst hr2
      subst hpc
      exact ⟨hthr, c, hc, rfl, rfl⟩

def storeW : EphemeralVectorStore Int :=
  { chunks := [{ chunk_id := "selected-000", text := "alpha", embedding := [1, 0],
                 chunk_index := 0 },
               { chunk_id := "selected-001", text := "beta", embedding := [0, 1],
                 chunk_index := 1 }] }

def qW : List Int := [2, 3]

/-- C7 witness: the theorem applied to a concrete two-chunk `Int` store. -/
theorem search_spec_witness :
    (storeW.search qW 5 0).length ≤ 5
      ∧ 0 ≤ ((storeW.search qW 5 0).getD 0 default).score :=
  ⟨(search_spec Int storeW qW 5 0).1,
   ((search_spec Int storeW qW 5 0).2.2 ((storeW.search qW 5 0).getD 0 default)
      (by decide)).1⟩

/-! ## Citation extraction (`agent.py`) -/

/-- The `SearchResult` dataclass of `vector_store.py` (the shape the agent
receives); the Python `section` attribute is called `sectionId` here.  The
`metadata` dict is not modelled. -/
structure SearchResult (R : Type) where
  chunk_id : String
  score : R
  text : String
  chapter : Nat
  sectionId : String
  subsection : Option String
  url_anchor : String
deriving DecidableEq, Repr, Inhabited

/-- The `Citation(...)` constructor call of `_extract_citations`, shared by
the marker loop and the fallback. -/
def citationOf {R : Type} (chunk : SearchResult R) : Citation R :=
  { chunk_id := chunk.chunk_id
    chapter := chunk.chapter
    sectionId := chunk.sectionId
    url_anchor := chunk.url_anchor
    relevance_score := chunk.score
    text_preview := String.mk (chunk.text.data.take 200)
    source := "Chapter " ++ numStr chunk.chapter ++ ", Section " ++ chunk.sectionId
      ++ (match chunk.subsection with
          | some sub => ", Subsection " ++ sub
          | none => "") }

/-- Case-insensitive match of a lowercase literal pattern against the input;
returns the rest of the input on success. -/
def matchCI : List Char → List Char → Option (List Char)
  | [], rest => some rest
  | _ :: _, [] => none
  | p :: ps, c :: cs => if c.toLower = p then matchCI ps cs else none

/-- One attempt of the citation regex
`\[Chapter\s+(\d+)(?:,\s*Section\s+([\d.]+))?\]` (case-insensitive) at the
start of the input: returns the parsed `(chapter, optional section)` and the
rest of the input after the match.  The greedy groups are deterministic here
because `\s`, `\d`, `[\d.]` and the following literals are disjoint; when the
optional group fails after a comma, the regex cannot match at this position
at all, because `]` cannot follow the chapter digits (a `,` does). -/
def tryMarker : List Char → Option ((Nat × Option String) × List Char)
  | '[' :: r1 =>
    match matchCI "chapter".data r1 with
    | none => none
    | some r2 =>
      if (r2.takeWhile Char.isWhitespace) = [] then none
      else
        let r3 := r2.dropWhile Char.isWhitespace
        let ds := r3.takeWhile Char.isDigit
        if ds = [] then none
        else
          match r3.dropWhile Char.isDigit with
          | ',' :: r5 =>
            (match matchCI "section".data (r5.dropWhile Char.isWhitespace) with
             | none => none
             | some r7 =>
               if (r7.takeWhile Char.isWhitespace) = [] then none
               else
                 let r8 := r7.dropWhile Char.isWhitespace
                 let sd := r8.takeWhile (fun c => c.isDigit || c = '.')
                 if sd = [] then none
                 else
                   match r8.dropWhile (fun c => c.isDigit || c = '.') with
                   | ']' :: rest => some ((numValAux ds 0, some (String.mk sd)), rest)
                   | _ => none)
          | ']' :: rest => some ((numValAux ds 0, none), rest)
          | _ => none
  | _ => none

/-- `re.finditer` over the answer: scan left to right, resuming after each
match, advancing one character on failure.  Fuelled by the input length. -/
def findMarkersAux : Nat → List Char → List (Nat × Option String)
  | 0, _ => []
  | _ + 1, [] => []
  | fuel + 1, c :: cs =>
    match tryMarker (c :: cs) with
    | some (m, rest) => m :: findMarkersAux fuel rest
    | none => findMarkersAux fuel cs

/-- All citation markers of an answer, in order. -/
def findMarkers (s : String) : List (Nat × Option String) :=
  findMarkersAux s.data.length s.data

/-- `if section_id and chunk.section != section_id: continue`. -/
def sectionMismatch (secOpt : Option String) (sid : String) : Bool :=
  match secOpt with
  | some s => sid ≠ s
  | none => false

/-- The inner `for chunk in chunks` loop of `_extract_citations` for one
marker, threading the `cited_chunks` dedup set (a list of keys
`(chunk_id, chapter, section)`). -/
def citeMarkerAux {R : Type} (chapter_num : Nat) (secOpt : Option String) :
    List (SearchResult R) → List (String × Nat × String) →
      List (Citation R) × List (String × Nat × String)
  | [], cited => ([], cited)
  | c :: cs, cited =>
    if c.chapter = chapter_num then
      if sectionMismatch secOpt c.sectionId then citeMarkerAux chapter_num secOpt cs cited
      else if (c.chunk_id, c.chapter, c.sectionId) ∈ cited then
        citeMarkerAux chapter_num secOpt cs cited
      else
        let res := citeMarkerAux chapter_num secOpt cs
          ((c.chunk_id, c.chapter, c.sectionId) :: cited)
        (citationOf c :: res.1, res.2)
    else citeMarkerAux chapter_num secOpt cs cited

/-- The outer `for match in matches` loop of `_extract_citations`. -/
def markersLoop {R : Type} :
    List (Nat × Option String) → List (SearchResult R) →
      List (String × Nat × String) → List (Citation R)
  | [], _, _ => []
  | (ch, so) :: ms, chunks, cited =>
    let res := citeMarkerAux ch so chunks cited
    res.1 ++ markersLoop ms chunks res.2

/-- `AgentService._extract_citations(answer, chunks)`: bind markers to
candidate passages with dedup, fall back to the top-3 candidates when no
marker matched, and sort by relevance score descending (Python's stable
sort). -/
def extract_citations {R : Type} [LinearOrderedCommRing R] (answer : String)
    (chunks : List (SearchResult R)) : List (Citation R) :=
  let citations := markersLoop (findMarkers answer) chunks []
  let citations2 :=
    if citations.isEmpty && !chunks.isEmpty then (chunks.take 3).map citationOf
    else citations
  sortDescBy (fun c => c.relevance_score) citations2

/-! ## Claims C8 and C9 -/

def cand1 : SearchResult Int :=
  { chunk_id := "c1", score := 9, text := "t1", chapter := 3, sectionId := "3.2",
    subsection := none, url_anchor := "a1" }

def cand2 : SearchResult Int :=
  { chunk_id := "c2", score := 8, text := "t2", chapter := 4, sectionId := "4.1",
    subsection := none, url_anchor := "a2" }

/-- C8: with answer text containing the marker `[Chapter 3, Section 3.2]`
and the two candidates `cand1` (chapter 3, section "3.2") and `cand2`
(chapter 4), exactly one Citation is produced and it references `cand1`;
matching is case-insensitive (second conjunct) and a repeated marker is
deduplicated on the key `(chunk_id, chapter, section)` (third conjunct). -/
theorem extract_citations_marker_binding :
    extract_citations "See [Chapter 3, Section 3.2] for details." [cand1, cand2]
        = [citationOf cand1]
      ∧ extract_citations "see [chapter 3, section 3.2] and more" [cand1, cand2]
        = [citationOf cand1]
      ∧ extract_citations "[Chapter 3, Section 3.2] twice [Chapter 3, Section 3.2]"
          [cand1, cand2] = [citationOf cand1] :=
  ⟨by decide, by decide, by decide⟩

/-- C9: the extracted citation list is always sorted by `relevance_score`
descending (ties keeping emission order: the sort is the stable
`sortDescBy`, whose tie behavior the filter equation below pins down), an
answer with non-empty candidates never yields zero citations, and when no
marker produced a citation the result is exactly the first
`min 3 (number of candidates)` candidates turned into Citations (each
carrying its candidate's score), stably sorted. -/
theorem extract_citations_fallback (R : Type) [LinearOrderedCommRing R]
    (answer : String) (chunks : List (SearchResult R)) :
    (extract_citations answer chunks).Pairwise
        (fun a b => b.relevance_score ≤ a.relevance_score)
    ∧ (chunks ≠ [] → extract_citations answer chunks ≠ [])
    ∧ (markersLoop (findMarkers answer) chunks [] = [] → chunks ≠ [] →
        extract_citations answer chunks
            = sortDescBy (fun c => c.relevance_score) ((chunks.take 3).map citationOf)
          ∧ (extract_citations answer chunks).length = min 3 chunks.length
          ∧ (∀ c ∈ extract_citations answer chunks, ∃ ch ∈ chunks.take 3, c = citationOf ch)
          ∧ ∀ q : R, (extract_citations answer chunks).filter
                (fun c => decide (c.relevance_score = q))
              = ((chunks.take 3).map citationOf).filter
                (fun c => decide (c.relevance_score = q))) := by
  refine ⟨?_, ?_, ?_⟩
  · simp only [extract_citations]
    exact sortDescBy_pairwise (fun c : Citation R => c.relevance_score) _
  · intro hne
    unfold extract_citations
    by_cases hraw : (markersLoop (findMarkers answer) chunks []
        : List (Citation R)).isEmpty
    · have hch : chunks.isEmpty = false := by
        cases chunks
        · exact absurd rfl hne
        · rfl
      simp only [hraw, hch, Bool.not_false, Bool.and_self, if_pos]
      apply sortDescBy_ne_nil
      cases chunks with
      | nil => exact absurd rfl hne
      | cons c cs => simp
    · have hraw2 : (markersLoop (findMarkers answer) chunks []
          : List (Citation R)) ≠ [] := by
        intro hcontra
        rw [hcontra] at hraw
        exact hraw rfl
      simp only [hraw, Bool.false_and, if_neg Bool.false_ne_true]
      exact sortDescBy_ne_nil _ hraw2
  · intro hraw hne
    have hch : chunks.isEmpty = false := by
      cases chunks
      · exact absurd rfl hne
      · rfl
    have hcond : extract_citations answer chunks
        = sortDescBy (fun c => c.relevance_score) ((chunks.take 3).map citationOf) := by
      unfold extract_citations
      rw [hraw]
      simp [hch]
    refine ⟨hcond, ?_, ?_, ?_⟩
    · rw [hcond, length_sortDescBy, List.length_map, List.length_take]
    · intro c hc
      rw [hcond] at hc
      have hc2 := (mem_sortDescBy _ _ c).mp hc
      rcases List.mem_map.mp hc2 with ⟨ch, hch2, hc3⟩
      exact ⟨ch, hch2, hc3.symm⟩
    · intro q
      rw [hcond]
      exact sortDescBy_filter (fun c : Citation R => c.relevance_score) q _
        (fun a ha => of_decide_eq_true ha) _

def chunks5 : List (SearchResult Int) :=
  [ { chunk_id := "k1", score := 9, text := "t1", chapter := 1, sectionId := "1.1",
      subsection := none, url_anchor := "u1" },
    { chunk_id := "k2", score := 8, text := "t2", chapter := 1, sectionId := "1.2",
      subsection := none, url_anchor := "u2" },
    { chunk_id := "k3", score := 7, text := "t3", chapter := 2, sectionId := "2.1",
      subsection := none, url_anchor := "u3" },
    { chunk_id := "k4", score := 3, text := "t4", chapter := 2, sectionId := "2.2",
      subsection := none, url_anchor := "u4" },
    { chunk_id := "k5", score := 2, text := "t5", chapter := 3, sectionId := "3.1",
      subsection := none, url_anchor := "u5" } ]

/-- C9 witness: an answer without markers over five ranked candidates yields
exactly `min 3 5 = 3` citations and a non-empty citation list. -/
theorem extract_citations_fallback_witness :
    (extract_citations "The robot walks." chunks5).length = min 3 chunks5.length
      ∧ extract_citations "The robot walks." chunks5 ≠ [] :=
  ⟨((extract_citations_fallback Int "The robot walks." chunks5).2.2
      (by decide) (by decide)).2.1,
   (extract_citations_fallback Int "The robot walks." chunks5).2.1 (by decide)⟩

end RagPipeline
